import Mathlib

set_option maxRecDepth 8000

namespace Lambo

/-!
Shallow embedding of `lambo/optimizers/eo_direct.py`: the `pareto_frontier`
helper and the round-loop orchestration of
`SequentialGeneticOptimizer.optimize`.

Objective values are modelled as integers (the claims under study concern
ordering and set structure, not floating-point rounding); raw candidate
sequences are modelled as naturals.  The parallel NumPy arrays
(candidates / objective rows / raw sequences) are collapsed into one list of
entries.  External collaborators are abstracted: the black-box task's
feasibility test becomes a predicate in the configuration; the inner pymoo
optimizer's final population (the output of `_evaluate_result`) and the RNG
draws consumed by `np.random.choice` are supplied by a per-round oracle; a
metric record keeps the data handed to `_log_optimizer_metrics`
(round index, the normalized pareto targets, the cumulative evaluation
count).  The `wandb.log` stream of optimizer metrics is modelled as a list of
such records; per-candidate logging, printing and the hv/r2/hsri indicator
arithmetic are outside the modelled core.
-/

/-- A candidate paired with its measured objective row.  `seq` stands for the
candidate's `mutant_residue_seq`, `obj` for its objective vector. -/
structure Entry where
  seq : Nat
  obj : List Int
deriving DecidableEq, Repr

instance : Inhabited Entry := ⟨⟨0, []⟩⟩

/-- Coordinatewise negation, the `-torch.tensor(obj_vals)` of
`pareto_frontier` (line 33). -/
def negObj (v : List Int) : List Int := v.map (fun a => -a)

/-- Modelled from the spec: `botorch.utils.multi_objective.pareto.is_non_dominated`
(maximization convention) is not part of this repository.  Per §4.1 a point is
dominated when another point is weakly better in every coordinate and strictly
better in at least one, and ties (identical vectors) are all retained as
non-dominated.  `dominatesMax y x` holds when `y` dominates `x` under
maximization. -/
def dominatesMax (y x : List Int) : Bool :=
  ((y.zip x).all fun p => decide (p.2 ≤ p.1)) &&
    ((y.zip x).any fun p => decide (p.2 < p.1))

/-- Modelled from the spec: the boolean mask returned by `is_non_dominated`
over a stack of objective rows (maximization convention, ties retained). -/
def isNonDominated (objs : List (List Int)) : List Bool :=
  objs.map (fun x => !(objs.any (fun y => dominatesMax y x)))

/-- The objective row handed to the dominance test: the raw row when
maximizing, its negation otherwise (`pareto_frontier`, lines 30-33). -/
def dirObj (maximize : Bool) (e : Entry) : List Int :=
  if maximize then e.obj else negObj e.obj

/-- `pareto_frontier(candidate_pool, obj_vals, maximize=False)` (lines 20-34):
a pool of size 1 is returned unchanged; otherwise the non-domination mask is
computed (over negated rows unless maximizing, since the utility assumes
maximization) and the pool is indexed by the mask. -/
def pareto_frontier (pool : List Entry) (maximize : Bool) : List Entry :=
  if pool.length == 1 then pool
  else
    let mask := isNonDominated (pool.map (dirObj maximize))
    (pool.zip mask).filterMap (fun p => if p.2 then some p.1 else none)

/-- `y` dominates `x` in the direction used by `pareto_frontier · maximize`. -/
def domE (maximize : Bool) (y x : Entry) : Bool :=
  dominatesMax (dirObj maximize y) (dirObj maximize x)

/-- The value of the non-domination mask at `e` within pool `l`. -/
def nondom (maximize : Bool) (l : List Entry) (e : Entry) : Bool :=
  !(l.any fun y => domE maximize y e)

/-- Errors of the without-replacement sampler (spec §4.2/§7). -/
inductive SamplerError where
  | insufficientPopulation
  | invalidDraw
deriving DecidableEq, Repr

/-- Modelled from the spec:
`np.random.choice(np.arange(popLen), num, p=w, replace=False)` draws `num`
distinct indices below `popLen` and fails with the
`InsufficientPopulationError` equivalent when `num` exceeds the population
(§4.2).  The actual randomness is supplied by the caller as `draw`; a `draw`
that is not a valid without-replacement sample is rejected as `invalidDraw`
(unreachable for the real sampler, which always produces a valid one).  The
resampling weights only bias which valid draw occurs, so they do not appear
in the model. -/
def sampleWithoutReplacement (popLen num : Nat) (draw : List Nat) :
    Except SamplerError (List Nat) :=
  if popLen < num then .error .insufficientPopulation
  else if draw.length == num && decide draw.Nodup &&
      (draw.all fun i => decide (i < popLen)) then .ok draw
  else .error .invalidDraw

/-- Configuration consumed by the round loop: `bb_task.batch_size`,
`num_rounds`, `concentrate_pool`, and the black-box feasibility test
`bb_task.is_feasible` (an external oracle, abstracted as a predicate). -/
structure Config where
  batchSize : Nat
  numRounds : Nat
  concentratePool : Nat
  feasible : Entry → Bool

/-- Per-round external inputs: the two RNG draws consumed by
`np.random.choice` during augmentation, the inner optimizer's final
population as parsed by `_evaluate_result` (new candidates with their
sequences and objective rows), and its evaluation count `bb_evals`. -/
structure RoundOracle where
  backtrackDraw : List Nat
  randDraw : List Nat
  proposals : List Entry
  bbEvals : Nat
deriving DecidableEq, Repr

/-- The data handed to `_log_optimizer_metrics`: round index, the
`norm_pareto_targets` matrix the indicators are computed from, and the
cumulative black-box evaluation count. -/
structure Metrics where
  roundIdx : Nat
  normTargets : List (List Int)
  numBbEvals : Nat
deriving DecidableEq, Repr

instance : Inhabited Metrics := ⟨⟨0, [], 0⟩⟩

/-- The mutable loop state of `optimize`:
`pool_candidates`/`pool_targets`/`pool_seqs` (collapsed into
`poolCandidates`), `all_seqs`, `all_targets`, the active set, the current
Pareto frontier `pareto_candidates`/`pareto_targets`/`pareto_seqs`, the
history arrays `pareto_cand_history`/`pareto_seq_history`/
`pareto_target_history` (collapsed into `hist`), `norm_pareto_targets`, the
last metrics record assigned to the `metrics` variable, the stream of records
logged by `_log_optimizer_metrics`, and `total_bb_evals`. -/
structure OptState where
  poolCandidates : List Entry
  allSeqs : List Nat
  allTargets : List (List Int)
  active : List Entry
  paretoFront : List Entry
  hist : List Entry
  normTargets : List (List Int)
  metrics : Metrics
  metricsLog : List Metrics
  totalBbEvals : Nat
deriving DecidableEq, Repr

instance : Inhabited OptState :=
  ⟨⟨[], [], [], [], [], [], [], default, [], 0⟩⟩

/-- Insertion of a natural into a sorted list (helper for the sorted output
of `np.unique`). -/
def insertSorted (x : Nat) : List Nat → List Nat
  | [] => [x]
  | y :: ys => if x ≤ y then x :: y :: ys else y :: insertSorted x ys

/-- Insertion sort on naturals (helper for the sorted output of `np.unique`). -/
def sortNat (l : List Nat) : List Nat := l.foldr insertSorted []

/-- First entry of `props` carrying raw sequence `s`
(`np.unique(..., return_index=True)` keeps the index of the first occurrence
of each unique value). -/
def firstWithSeq (props : List Entry) (s : Nat) : Entry :=
  (props.filter (fun e => e.seq == s)).headD default

/-- The duplicate-sequence filter (lines 237-240):
`np.unique(new_seqs, return_index=True)` yields the sorted distinct
sequences, each paired with its first occurrence in the batch. -/
def uniqueBySeq (props : List Entry) : List Entry :=
  (sortNat (props.map (fun e => e.seq)).dedup).map (firstWithSeq props)

/-- Active-pool contraction (lines 141-145): every `concentrate_pool` rounds
(when configured positive) the active set is replaced by its Pareto frontier,
computed under the default minimize direction. -/
def contractStep (cfg : Config) (active : List Entry) (roundIdx : Nat) : List Entry :=
  if 0 < cfg.concentratePool && roundIdx % cfg.concentratePool == 0 then
    pareto_frontier active false
  else active

/-- Backtrack augmentation (lines 146-164): when the active set is below
`batch_size`, draw `min(batch_size, |history|)` indices without replacement
from the history, drop those whose sequence is already active, and when any
remain append the first `min(num_samples, batch_size - |active|)` of them. -/
def backtrackAugment (cfg : Config) (hist active : List Entry) (draw : List Nat) :
    Except SamplerError (List Entry) :=
  if active.length < cfg.batchSize then
    match sampleWithoutReplacement hist.length (min cfg.batchSize hist.length)
        draw with
    | .error e => .error e
    | .ok idxs =>
      if 0 < (idxs.filter (fun i =>
          !((active.map (fun e => e.seq)).contains
            (hist.getD i default).seq))).length then
        .ok (active ++ ((idxs.filter (fun i =>
            !((active.map (fun e => e.seq)).contains
              (hist.getD i default).seq))).take
          (min (min cfg.batchSize hist.length)
            (cfg.batchSize - active.length))).map
          (fun i => hist.getD i default))
      else .ok active
  else .ok active

/-- Random augmentation (lines 165-181): when the active set is still below
`batch_size`, draw `min(batch_size, |pool|)` indices without replacement from
the full pool, drop already-active sequences, truncate to
`min(num_samples, batch_size - |active|)` and append (unconditionally, the
appended slice may be empty). -/
def randomAugment (cfg : Config) (pool active : List Entry) (draw : List Nat) :
    Except SamplerError (List Entry) :=
  if active.length < cfg.batchSize then
    match sampleWithoutReplacement pool.length (min cfg.batchSize pool.length)
        draw with
    | .error e => .error e
    | .ok idxs =>
      .ok (active ++ ((idxs.filter (fun i =>
          !((active.map (fun e => e.seq)).contains
            (pool.getD i default).seq))).take
        (min (min cfg.batchSize pool.length)
          (cfg.batchSize - active.length))).map
        (fun i => pool.getD i default))
  else .ok active

/-- The per-round active-set state machine (lines 141-181): contraction, then
backtrack augmentation from the history, then random augmentation from the
full pool. -/
def prepareActive (cfg : Config) (st : OptState) (roundIdx : Nat)
    (bd rd : List Nat) : Except SamplerError (List Entry) :=
  match backtrackAugment cfg st.hist (contractStep cfg st.active roundIdx) bd with
  | .error e => .error e
  | .ok a => randomAugment cfg st.poolCandidates a rd

/-- State after the `continue` at lines 233-235: all proposals were
infeasible; the already-performed active-set preparation and the evaluation
count survive, nothing else changes and no metric record is logged. -/
def skipState (st : OptState) (a : List Entry) (tot : Nat) : OptState :=
  { st with active := a, totalBbEvals := tot }

/-- State after the `continue` at lines 247-252: no proposal survived the
novelty filter; one metric record for the round is logged (with the stale
`norm_pareto_targets`), but the `metrics` variable is not reassigned. -/
def skipLogState (st : OptState) (a : List Entry) (r tot : Nat) : OptState :=
  { st with
      active := a
      totalBbEvals := tot
      metricsLog := st.metricsLog ++ [⟨r, st.normTargets, tot⟩] }

/-- State after a round whose proposals survive all filters (lines 254-296):
append to the pool, the all-time observed arrays and the active set;
recompute the global frontier over (previous frontier ++ new proposals) under
the default minimize direction; merge the frontier points whose sequence is
new into the history; refresh `norm_pareto_targets`; log and assign the
round's metric record. -/
def acceptState (st : OptState) (a : List Entry) (r tot : Nat)
    (props : List Entry) : OptState :=
  let front := pareto_frontier (st.paretoFront ++ props) false
  let m : Metrics := ⟨r, front.map (fun e => e.obj), tot⟩
  { poolCandidates := st.poolCandidates ++ props
    allSeqs := st.allSeqs ++ props.map (fun e => e.seq)
    allTargets := st.allTargets ++ props.map (fun e => e.obj)
    active := a ++ props
    paretoFront := front
    hist := st.hist ++ front.filter
        (fun e => !((st.hist.map (fun h => h.seq)).contains e.seq))
    normTargets := front.map (fun e => e.obj)
    metrics := m
    metricsLog := st.metricsLog ++ [m]
    totalBbEvals := tot }

/-- One iteration of the round loop (lines 140-296): prepare the active set,
run the inner optimization (whose parsed result and evaluation count come
from the oracle), then the filter pipeline — feasibility, duplicate
sequences, novelty against `all_seqs` — with the two `continue` branches, and
otherwise the accept path. -/
def roundStep (cfg : Config) (orc : Nat → RoundOracle) (st : OptState)
    (r : Nat) : Except SamplerError OptState :=
  match prepareActive cfg st r (orc r).backtrackDraw (orc r).randDraw with
  | .error e => .error e
  | .ok a =>
    if (orc r).proposals.filter cfg.feasible = [] then
      .ok (skipState st a (st.totalBbEvals + (orc r).bbEvals))
    else if (uniqueBySeq ((orc r).proposals.filter cfg.feasible)).filter
        (fun e => !(st.allSeqs.contains e.seq)) = [] then
      .ok (skipLogState st a r (st.totalBbEvals + (orc r).bbEvals))
    else
      .ok (acceptState st a r (st.totalBbEvals + (orc r).bbEvals)
        ((uniqueBySeq ((orc r).proposals.filter cfg.feasible)).filter
          (fun e => !(st.allSeqs.contains e.seq))))

/-- Initialization of `optimize` (lines 86-121): filter the incoming pool to
feasible candidates, take it as the active set, compute the initial Pareto
frontier with `maximize=True` (line 106), seed the history with it, and log
the round-0 metric record. -/
def initState (cfg : Config) (inPool : List Entry) (as0 : List Nat)
    (at0 : List (List Int)) : OptState :=
  let pool := inPool.filter cfg.feasible
  let front := pareto_frontier pool true
  let m : Metrics := ⟨0, front.map (fun e => e.obj), 0⟩
  { poolCandidates := pool
    allSeqs := as0
    allTargets := at0
    active := pool
    paretoFront := front
    hist := front
    normTargets := front.map (fun e => e.obj)
    metrics := m
    metricsLog := [m]
    totalBbEvals := 0 }

/-- The loop state after rounds `1..r` (the `for round_idx in
range(1, num_rounds + 1)` loop, truncated after `r` iterations). -/
def runTo (cfg : Config) (orc : Nat → RoundOracle) (inPool : List Entry)
    (as0 : List Nat) (at0 : List (List Int)) : Nat → Except SamplerError OptState
  | 0 => .ok (initState cfg inPool as0 at0)
  | r + 1 =>
    match runTo cfg orc inPool as0 at0 r with
    | .error e => .error e
    | .ok st => roundStep cfg orc st (r + 1)

/-- `optimize` (lines 86-298): run all `num_rounds` rounds and return the
current value of the `metrics` variable. -/
def optimize (cfg : Config) (orc : Nat → RoundOracle) (inPool : List Entry)
    (as0 : List Nat) (at0 : List (List Int)) : Except SamplerError Metrics :=
  (runTo cfg orc inPool as0 at0 cfg.numRounds).map (fun st => st.metrics)

/-- The sequence-bookkeeping invariant of the loop: the frontier's sequences
are all observed, the frontier and the history contain no duplicate
sequences, and every frontier sequence is present in the history
(ParetoArchive ⊆ ParetoHistory, spec §3). -/
def HistInv (st : OptState) : Prop :=
  (∀ s ∈ st.paretoFront.map (fun e => e.seq), s ∈ st.allSeqs) ∧
  (st.paretoFront.map (fun e => e.seq)).Nodup ∧
  (st.hist.map (fun e => e.seq)).Nodup ∧
  (∀ s ∈ st.paretoFront.map (fun e => e.seq), s ∈ st.hist.map (fun e => e.seq))

/-! Concrete instances used by counterexamples and witnesses. -/

/-- Pool entry with objective row `[0, 0]`. -/
def e00 : Entry := ⟨0, [0, 0]⟩

/-- Pool entry with objective row `[1, 1]`. -/
def e11 : Entry := ⟨1, [1, 1]⟩

/-- Proposal entry with objective row `[2, 2]`. -/
def e22 : Entry := ⟨2, [2, 2]⟩

/-- One round, batch size 1, contraction every round, everything feasible. -/
def cfgEx : Config := ⟨1, 1, 1, fun _ => true⟩

/-- A two-candidate incoming labeled pool. -/
def inPoolEx : List Entry := [e00, e11]

/-- Oracle proposing the single novel candidate `e22` each round. -/
def orcEx : Nat → RoundOracle := fun _ => ⟨[], [], [e22], 5⟩

/-- Observed sequences matching `inPoolEx`. -/
def as0Ex : List Nat := [0, 1]

/-- Observed targets matching `inPoolEx`. -/
def at0Ex : List (List Int) := [[0, 0], [1, 1]]

/-- The loop state of the example run after round 1. -/
def stEx1 : OptState :=
  (runTo cfgEx orcEx inPoolEx as0Ex at0Ex 1).toOption.getD default

/-- The loop state of the example run after initialization. -/
def st0Ex : OptState := initState cfgEx inPoolEx as0Ex at0Ex

/-- Batch size 2, one round, no contraction, a candidate is feasible when its
sequence is below 10. -/
def cfg2Ex : Config := ⟨2, 1, 0, fun e => decide (e.seq < 10)⟩

/-- Initial state of the infeasible-proposal example run. -/
def st2Ex : OptState := initState cfg2Ex [⟨0, [0, 0]⟩] [0] [[0, 0]]

/-- Oracle proposing a single infeasible candidate (sequence 99). -/
def orc2Ex : Nat → RoundOracle := fun _ => ⟨[0], [0], [⟨99, [5, 5]⟩], 3⟩

/-- Result state of the infeasible-proposal example round. -/
def st2Ex1 : OptState := (roundStep cfg2Ex orc2Ex st2Ex 1).toOption.getD default

/-- Batch size 1, contraction every round, everything feasible. -/
def cfg3Ex : Config := ⟨1, 1, 1, fun _ => true⟩

/-- State whose active set holds two mutually non-dominated points. -/
def st3Ex : OptState :=
  initState cfg3Ex [⟨10, [0, 1]⟩, ⟨11, [1, 0]⟩] [10, 11] [[0, 1], [1, 0]]

/-- Batch size 5, one round, contraction every round, everything feasible. -/
def cfg4Ex : Config := ⟨5, 1, 1, fun _ => true⟩

/-- A ten-entry history with distinct sequences 0..9. -/
def hist4Ex : List Entry := (List.range 10).map (fun i => ⟨i, [Int.ofNat i]⟩)

/-- A two-entry active set with sequences 100 and 101. -/
def active4Ex : List Entry := [⟨100, [0]⟩, ⟨101, [1]⟩]

/-- A fifty-entry candidate pool with sequences 200..249. -/
def pool4Ex : List Entry := (List.range 50).map (fun i => ⟨200 + i, [Int.ofNat i]⟩)

/-! Basic facts about the dominance test. -/

theorem any_map' {α β : Type} (f : α → β) (p : β → Bool) (l : List α) :
    (l.map f).any p = l.any (fun a => p (f a)) := by
  induction l with
  | nil => rfl
  | cons a t ih => simp [List.map_cons, List.any_cons, ih]

theorem all_map' {α β : Type} (f : α → β) (p : β → Bool) (l : List α) :
    (l.map f).all p = l.all (fun a => p (f a)) := by
  induction l with
  | nil => rfl
  | cons a t ih => simp [List.map_cons, List.all_cons, ih]

theorem zip_self (v : List Int) : v.zip v = v.map (fun a => (a, a)) := by
  induction v with
  | nil => rfl
  | cons a t ih => simp [List.zip_cons_cons, ih]

theorem dominatesMax_self (v : List Int) : dominatesMax v v = false := by
  unfold dominatesMax
  have h : (v.zip v).any (fun p => decide (p.2 < p.1)) = false := by
    rw [zip_self, any_map', List.any_eq_false]
    intro a _
    simp
  rw [h, Bool.and_false]

theorem domE_self (mx : Bool) (e : Entry) : domE mx e e = false := by
  unfold domE
  exact dominatesMax_self _

theorem zip_negObj (y x : List Int) :
    (negObj y).zip (negObj x) = (y.zip x).map (fun p => (-p.1, -p.2)) := by
  induction y generalizing x with
  | nil => simp [negObj]
  | cons a t ih =>
    cases x with
    | nil => simp [negObj]
    | cons b s =>
      have h := ih s
      simp only [negObj] at h ⊢
      simp [List.zip_cons_cons, h]

theorem dominatesMax_negObj (y x : List Int) :
    dominatesMax (negObj y) (negObj x) = dominatesMax x y := by
  unfold dominatesMax
  rw [zip_negObj, ← List.zip_swap y x, all_map', all_map', any_map', any_map']
  congr 1
  · congr 1
    funext p
    simp [neg_le_neg_iff]
  · congr 1
    funext p
    simp [neg_lt_neg_iff]

theorem domE_false_eq (y x : Entry) : domE false y x = domE true x y := by
  unfold domE dirObj
  simp [dominatesMax_negObj]

theorem length_negObj (v : List Int) : (negObj v).length = v.length := by
  simp [negObj]

theorem length_dirObj (mx : Bool) (e : Entry) :
    (dirObj mx e).length = e.obj.length := by
  cases mx <;> simp [dirObj, length_negObj]

theorem all_getD {α : Type} (d₀ : α) (p : α → Bool) (l : List α) :
    l.all p = true ↔ ∀ i, i < l.length → p (l.getD i d₀) = true := by
  induction l with
  | nil => simp
  | cons a t ih =>
    rw [List.all_cons, Bool.and_eq_true, ih]
    constructor
    · rintro ⟨hpa, h⟩ i hi
      cases i with
      | zero => simpa using hpa
      | succ j => exact h j (by simpa [List.length_cons] using hi)
    · intro h
      refine ⟨by simpa using h 0 (by simp [List.length_cons]), fun j hj => ?_⟩
      simpa using h (j + 1) (by simpa [List.length_cons] using Nat.succ_lt_succ hj)

theorem any_getD {α : Type} (d₀ : α) (p : α → Bool) (l : List α) :
    l.any p = true ↔ ∃ i, i < l.length ∧ p (l.getD i d₀) = true := by
  induction l with
  | nil => simp
  | cons a t ih =>
    rw [List.any_cons, Bool.or_eq_true, ih]
    constructor
    · rintro (hpa | ⟨i, hi, hp⟩)
      · exact ⟨0, by simp [List.length_cons], by simpa using hpa⟩
      · exact ⟨i + 1, by simpa [List.length_cons] using Nat.succ_lt_succ hi,
          by simpa using hp⟩
    · rintro ⟨i, hi, hp⟩
      cases i with
      | zero => exact Or.inl (by simpa using hp)
      | succ j =>
        exact Or.inr ⟨j, by simpa [List.length_cons] using hi, by simpa using hp⟩

theorem getD_zip (y x : List Int) (i : Nat) (hy : i < y.length)
    (hx : i < x.length) :
    (y.zip x).getD i (0, 0) = (y.getD i 0, x.getD i 0) := by
  induction y generalizing x i with
  | nil => simp at hy
  | cons a t ih =>
    cases x with
    | nil => simp at hx
    | cons b s =>
      cases i with
      | zero => rfl
      | succ j =>
        simp only [List.zip_cons_cons, List.getD_cons_succ]
        exact ih s j (by simpa [List.length_cons] using hy)
          (by simpa [List.length_cons] using hx)

theorem dominatesMax_iff {y x : List Int} (h : y.length = x.length) :
    dominatesMax y x = true ↔
      ((∀ i, i < x.length → x.getD i 0 ≤ y.getD i 0) ∧
        ∃ i, i < x.length ∧ x.getD i 0 < y.getD i 0) := by
  have hz : (y.zip x).length = x.length := by
    rw [List.length_zip, h, min_self]
  unfold dominatesMax
  rw [Bool.and_eq_true, all_getD (0, 0), any_getD (0, 0)]
  constructor
  · rintro ⟨hall, i, hi, hlt⟩
    rw [hz] at hi
    constructor
    · intro j hj
      have := hall j (by rw [hz]; exact hj)
      rw [getD_zip y x j (by omega) hj] at this
      exact of_decide_eq_true this
    · refine ⟨i, hi, ?_⟩
      rw [getD_zip y x i (by omega) hi] at hlt
      exact of_decide_eq_true hlt
  · rintro ⟨hall, i, hi, hlt⟩
    constructor
    · intro j hj
      rw [hz] at hj
      rw [getD_zip y x j (by omega) hj]
      exact decide_eq_true (hall j hj)
    · refine ⟨i, by rw [hz]; exact hi, ?_⟩
      rw [getD_zip y x i (by omega) hi]
      exact decide_eq_true hlt

theorem dominatesMax_trans {a b c : List Int} (hab : a.length = b.length)
    (hbc : b.length = c.length) (h1 : dominatesMax a b = true)
    (h2 : dominatesMax b c = true) : dominatesMax a c = true := by
  rw [dominatesMax_iff hab] at h1
  rw [dominatesMax_iff hbc] at h2
  rw [dominatesMax_iff (hab.trans hbc)]
  obtain ⟨h1w, -⟩ := h1
  obtain ⟨h2w, i, hi, h2s⟩ := h2
  refine ⟨fun j hj => le_trans (h2w j hj) (h1w j (by omega)), i, hi, ?_⟩
  exact lt_of_lt_of_le h2s (h1w i (by omega))

theorem domE_trans {mx : Bool} {a b c : Entry} {n : Nat}
    (ha : a.obj.length = n) (hb : b.obj.length = n) (hc : c.obj.length = n)
    (h1 : domE mx a b = true) (h2 : domE mx b c = true) :
    domE mx a c = true := by
  unfold domE at h1 h2 ⊢
  exact dominatesMax_trans
    (by rw [length_dirObj, length_dirObj, ha, hb])
    (by rw [length_dirObj, length_dirObj, hb, hc]) h1 h2

/-! The mask-based `pareto_frontier` coincides with a filter by pointwise
non-domination, which is the form the proofs below work with. -/

theorem zip_mask_filter {α : Type} (l : List α) (f : α → Bool) :
    ((l.zip (l.map f)).filterMap fun p => if p.2 then some p.1 else none) =
      l.filter f := by
  induction l with
  | nil => rfl
  | cons a t ih =>
    simp only [List.map_cons, List.zip_cons_cons, List.filterMap_cons,
      List.filter_cons]
    cases hfa : f a <;> simp [hfa, ih]

theorem isNonDominated_map (mx : Bool) (pool : List Entry) :
    isNonDominated (pool.map (dirObj mx)) = pool.map (nondom mx pool) := by
  unfold isNonDominated nondom domE
  rw [List.map_map]
  simp only [Function.comp, any_map']
  rfl

theorem pareto_frontier_eq_filter (pool : List Entry) (mx : Bool) :
    pareto_frontier pool mx = pool.filter (nondom mx pool) := by
  cases pool with
  | nil => rfl
  | cons a t =>
    cases t with
    | nil =>
      simp [pareto_frontier, List.filter_cons, nondom, domE, dominatesMax_self]
    | cons b t' =>
      have hne : ¬((a :: b :: t').length == 1) = true := by
        simp [List.length_cons]
      unfold pareto_frontier
      rw [if_neg hne, isNonDominated_map, zip_mask_filter]

theorem mem_pareto_frontier {pool : List Entry} {mx : Bool} {e : Entry} :
    e ∈ pareto_frontier pool mx ↔ e ∈ pool ∧ nondom mx pool e = true := by
  rw [pareto_frontier_eq_filter]
  exact List.mem_filter

theorem pareto_frontier_sublist (pool : List Entry) (mx : Bool) :
    (pareto_frontier pool mx).Sublist pool := by
  rw [pareto_frontier_eq_filter]
  exact List.filter_sublist pool

theorem nondom_iff {mx : Bool} {l : List Entry} {e : Entry} :
    nondom mx l e = true ↔ ∀ y ∈ l, domE mx y e = false := by
  simp [nondom, List.any_eq_false]

theorem nondom_congr_obj {mx : Bool} {l : List Entry} {e₁ e₂ : Entry}
    (h : e₁.obj = e₂.obj) : nondom mx l e₁ = nondom mx l e₂ := by
  unfold nondom domE dirObj
  rw [h]

/-! Every dominated point has a dominator that is itself non-dominated, which
is what makes the incremental frontier recomputation over
(previous frontier ++ new points) complete — provided both frontier
computations use the same direction. -/

theorem bool_eq_of_iff {b₁ b₂ : Bool} (h : b₁ = true ↔ b₂ = true) : b₁ = b₂ := by
  cases b₁ <;> cases b₂ <;> simp_all

theorem countP_lt {α : Type} {p q : α → Bool} {l : List α}
    (hpq : ∀ a ∈ l, p a = true → q a = true) {a₀ : α} (ha₀ : a₀ ∈ l)
    (hq : q a₀ = true) (hp : p a₀ = false) :
    l.countP p < l.countP q := by
  induction l with
  | nil => simp at ha₀
  | cons b t ih =>
    rw [List.countP_cons, List.countP_cons]
    rcases List.mem_cons.mp ha₀ with rfl | hmem
    · have hle : t.countP p ≤ t.countP q :=
        List.countP_mono_left (fun x hx => hpq x (List.mem_cons_of_mem _ hx))
      simp [hp, hq]
      omega
    · have hlt := ih (fun x hx h => hpq x (List.mem_cons_of_mem _ hx) h) hmem
      cases hpb : p b
      · cases hqb : q b <;> simp [hpb, hqb] <;> omega
      · have hqb := hpq b (List.mem_cons_self _ _) hpb
        simp [hpb, hqb]
        omega

theorem exists_nondom_dominator {mx : Bool} {n : Nat} {L : List Entry}
    (hL : ∀ e ∈ L, e.obj.length = n) :
    ∀ (x : Entry), x.obj.length = n → ∀ y ∈ L, domE mx y x = true →
      ∃ z ∈ L, domE mx z x = true ∧ nondom mx L z = true := by
  suffices H : ∀ (k : Nat) (x : Entry), x.obj.length = n →
      L.countP (fun z => domE mx z x) ≤ k →
      ∀ y ∈ L, domE mx y x = true →
      ∃ z ∈ L, domE mx z x = true ∧ nondom mx L z = true by
    intro x hx y hy hdom
    exact H (L.countP (fun z => domE mx z x)) x hx le_rfl y hy hdom
  intro k
  induction k with
  | zero =>
    intro x hx hcnt y hy hdom
    exfalso
    have : 0 < L.countP (fun z => domE mx z x) :=
      List.countP_pos_iff.mpr ⟨y, hy, hdom⟩
    omega
  | succ k ih =>
    intro x hx hcnt y hy hdom
    by_cases hnd : nondom mx L y = true
    · exact ⟨y, hy, hdom, hnd⟩
    · have hndf : nondom mx L y = false := by
        cases h : nondom mx L y
        · rfl
        · exact absurd h hnd
      have hany : L.any (fun w => domE mx w y) = true := by
        unfold nondom at hndf
        simpa using hndf
      obtain ⟨w, hw, hdw⟩ := List.any_eq_true.mp hany
      have hylen : y.obj.length = n := hL y hy
      have hlt : L.countP (fun z => domE mx z y) <
          L.countP (fun z => domE mx z x) := by
        apply countP_lt (fun a ha hpa => domE_trans (hL a ha) hylen hx hpa hdom)
          hy hdom (domE_self mx y)
      have hk : L.countP (fun z => domE mx z y) ≤ k := by omega
      obtain ⟨z, hz, hzy, hznd⟩ := ih y hylen hk w hw hdw
      exact ⟨z, hz, domE_trans (hL z hz) hylen hx hzy hdom, hznd⟩

theorem nondom_filter_append {mx : Bool} {n : Nat} {S B : List Entry}
    (hS : ∀ e ∈ S, e.obj.length = n) (e : Entry) (he : e.obj.length = n) :
    nondom mx (S.filter (nondom mx S) ++ B) e = nondom mx (S ++ B) e := by
  apply bool_eq_of_iff
  rw [nondom_iff, nondom_iff]
  constructor
  · intro h y hy
    rcases List.mem_append.mp hy with hyS | hyB
    · cases hd : domE mx y e
      · rfl
      · exfalso
        obtain ⟨z, hz, hze, hznd⟩ := exists_nondom_dominator hS e he y hyS hd
        have hzmem : z ∈ S.filter (nondom mx S) ++ B :=
          List.mem_append.mpr (Or.inl (List.mem_filter.mpr ⟨hz, hznd⟩))
        have hze2 := h z hzmem
        rw [hze] at hze2
        simp at hze2
    · exact h y (List.mem_append.mpr (Or.inr hyB))
  · intro h y hy
    apply h
    rcases List.mem_append.mp hy with hyF | hyB
    · exact List.mem_append.mpr (Or.inl (List.mem_filter.mp hyF).1)
    · exact List.mem_append.mpr (Or.inr hyB)

theorem pareto_frontier_append {mx : Bool} {n : Nat} (S B : List Entry)
    (hS : ∀ e ∈ S, e.obj.length = n) (hB : ∀ e ∈ B, e.obj.length = n) :
    pareto_frontier (pareto_frontier S mx ++ B) mx =
      pareto_frontier (S ++ B) mx := by
  rw [pareto_frontier_eq_filter S mx,
    pareto_frontier_eq_filter (S.filter (nondom mx S) ++ B) mx,
    pareto_frontier_eq_filter (S ++ B) mx,
    List.filter_append, List.filter_append, List.filter_filter]
  congr 1
  · apply List.filter_congr
    intro e heS
    have he : e.obj.length = n := hS e heS
    rw [nondom_filter_append hS e he]
    cases hbig : nondom mx (S ++ B) e
    · simp
    · have hsml : nondom mx S e = true := by
        rw [nondom_iff] at hbig ⊢
        intro y hy
        exact hbig y (List.mem_append.mpr (Or.inl hy))
      simp [hsml]
  · apply List.filter_congr
    intro e heB
    exact nondom_filter_append hS e (hB e heB)

/-- Within a maximize-direction frontier no point minimize-dominates another
(minimize-dominance is reversed maximize-dominance), so re-filtering the
round-0 frontier under minimize leaves it unchanged. -/
theorem minF_of_maxF (pool : List Entry) :
    pareto_frontier (pareto_frontier pool true) false =
      pareto_frontier pool true := by
  rw [pareto_frontier_eq_filter (pareto_frontier pool true) false]
  apply List.filter_eq_self.mpr
  intro e he
  rw [nondom_iff]
  intro y hy
  cases hd : domE false y e
  · rfl
  · exfalso
    rw [domE_false_eq] at hd
    have hy2 := mem_pareto_frontier.mp hy
    have he2 := mem_pareto_frontier.mp he
    have hcon := nondom_iff.mp hy2.2 e he2.1
    rw [hd] at hcon
    simp at hcon

/-! Facts about the duplicate-sequence filter. -/

theorem insertSorted_perm (x : Nat) (l : List Nat) :
    (insertSorted x l).Perm (x :: l) := by
  induction l with
  | nil => exact List.Perm.refl _
  | cons y ys ih =>
    unfold insertSorted
    by_cases h : x ≤ y
    · rw [if_pos h]
    · rw [if_neg h]
      exact (List.Perm.cons y ih).trans (List.Perm.swap x y ys)

theorem sortNat_perm (l : List Nat) : (sortNat l).Perm l := by
  induction l with
  | nil => exact List.Perm.refl _
  | cons a t ih =>
    show (insertSorted a (sortNat t)).Perm (a :: t)
    exact (insertSorted_perm a (sortNat t)).trans (List.Perm.cons a ih)

theorem map_eq_self {α : Type} {l : List α} {f : α → α}
    (h : ∀ a ∈ l, f a = a) : l.map f = l := by
  induction l with
  | nil => rfl
  | cons a t ih =>
    rw [List.map_cons, h a (List.mem_cons_self a t),
      ih (fun x hx => h x (List.mem_cons_of_mem _ hx))]

theorem firstWithSeq_spec {l : List Entry} {s : Nat}
    (h : s ∈ l.map (fun e => e.seq)) :
    firstWithSeq l s ∈ l ∧ (firstWithSeq l s).seq = s := by
  obtain ⟨e, he, hes⟩ := List.mem_map.mp h
  have hmem : e ∈ l.filter (fun e2 => e2.seq == s) :=
    List.mem_filter.mpr ⟨he, by simp [hes]⟩
  cases hfil : l.filter (fun e2 => e2.seq == s) with
  | nil => rw [hfil] at hmem; simp at hmem
  | cons f fs =>
    have hf : f ∈ l.filter (fun e2 => e2.seq == s) := by
      rw [hfil]
      exact List.mem_cons_self _ _
    have hf2 := List.mem_filter.mp hf
    unfold firstWithSeq
    rw [hfil]
    simp only [List.headD_cons]
    exact ⟨hf2.1, by simpa using hf2.2⟩

theorem mem_uniqueBySeq {l : List Entry} {e : Entry} (h : e ∈ uniqueBySeq l) :
    e ∈ l := by
  unfold uniqueBySeq at h
  obtain ⟨s, hs, hfe⟩ := List.mem_map.mp h
  have hs3 : s ∈ l.map (fun e2 => e2.seq) :=
    List.mem_dedup.mp ((sortNat_perm _).mem_iff.mp hs)
  rw [← hfe]
  exact (firstWithSeq_spec hs3).1

theorem uniqueBySeq_map_seq (l : List Entry) :
    (uniqueBySeq l).map (fun e => e.seq) =
      sortNat (l.map (fun e => e.seq)).dedup := by
  unfold uniqueBySeq
  rw [List.map_map]
  apply map_eq_self
  intro s hs
  have hs3 : s ∈ l.map (fun e2 => e2.seq) :=
    List.mem_dedup.mp ((sortNat_perm _).mem_iff.mp hs)
  exact (firstWithSeq_spec hs3).2

theorem uniqueBySeq_seq_nodup (l : List Entry) :
    ((uniqueBySeq l).map (fun e => e.seq)).Nodup := by
  rw [uniqueBySeq_map_seq]
  exact (sortNat_perm _).nodup_iff.mpr (List.nodup_dedup _)

theorem uniqueBySeq_ne_nil {l : List Entry} (h : l ≠ []) :
    uniqueBySeq l ≠ [] := by
  unfold uniqueBySeq
  rw [Ne, List.map_eq_nil_iff]
  intro hnil
  have hlen := (sortNat_perm (l.map (fun e => e.seq)).dedup).length_eq
  rw [hnil] at hlen
  have hd : (l.map (fun e2 => e2.seq)).dedup = [] :=
    List.length_eq_zero.mp hlen.symm
  rw [List.dedup_eq_nil, List.map_eq_nil_iff] at hd
  exact h hd

/-! Branch characterization of one round of the loop. -/

theorem roundStep_feas_empty {cfg : Config} {orc : Nat → RoundOracle}
    {st : OptState} {r : Nat} {a : List Entry}
    (hprep : prepareActive cfg st r (orc r).backtrackDraw (orc r).randDraw = .ok a)
    (hfe : (orc r).proposals.filter cfg.feasible = []) :
    roundStep cfg orc st r =
      .ok (skipState st a (st.totalBbEvals + (orc r).bbEvals)) := by
  unfold roundStep
  rw [hprep]
  simp only [hfe, if_pos]

theorem roundStep_novelty_empty {cfg : Config} {orc : Nat → RoundOracle}
    {st : OptState} {r : Nat} {a : List Entry}
    (hprep : prepareActive cfg st r (orc r).backtrackDraw (orc r).randDraw = .ok a)
    (hfne : (orc r).proposals.filter cfg.feasible ≠ [])
    (hne : (uniqueBySeq ((orc r).proposals.filter cfg.feasible)).filter
      (fun e => !(st.allSeqs.contains e.seq)) = []) :
    roundStep cfg orc st r =
      .ok (skipLogState st a r (st.totalBbEvals + (orc r).bbEvals)) := by
  unfold roundStep
  rw [hprep]
  simp only [hfne, hne, if_neg, if_pos, ite_false, ite_true]

theorem roundStep_accept {cfg : Config} {orc : Nat → RoundOracle}
    {st : OptState} {r : Nat} {a : List Entry}
    (hprep : prepareActive cfg st r (orc r).backtrackDraw (orc r).randDraw = .ok a)
    (hfne : (orc r).proposals.filter cfg.feasible ≠ [])
    (hnne : (uniqueBySeq ((orc r).proposals.filter cfg.feasible)).filter
      (fun e => !(st.allSeqs.contains e.seq)) ≠ []) :
    roundStep cfg orc st r =
      .ok (acceptState st a r (st.totalBbEvals + (orc r).bbEvals)
        ((uniqueBySeq ((orc r).proposals.filter cfg.feasible)).filter
          (fun e => !(st.allSeqs.contains e.seq)))) := by
  unfold roundStep
  rw [hprep]
  simp only [hfne, hnne, if_neg, ite_false]

theorem roundStep_ok_inv {cfg : Config} {orc : Nat → RoundOracle}
    {st : OptState} {r : Nat} {st₁ : OptState}
    (h : roundStep cfg orc st r = .ok st₁) :
    ∃ a, prepareActive cfg st r (orc r).backtrackDraw (orc r).randDraw = .ok a ∧
      (((orc r).proposals.filter cfg.feasible = [] ∧
          st₁ = skipState st a (st.totalBbEvals + (orc r).bbEvals)) ∨
        ((orc r).proposals.filter cfg.feasible ≠ [] ∧
          (uniqueBySeq ((orc r).proposals.filter cfg.feasible)).filter
            (fun e => !(st.allSeqs.contains e.seq)) = [] ∧
          st₁ = skipLogState st a r (st.totalBbEvals + (orc r).bbEvals)) ∨
        ((orc r).proposals.filter cfg.feasible ≠ [] ∧
          (uniqueBySeq ((orc r).proposals.filter cfg.feasible)).filter
            (fun e => !(st.allSeqs.contains e.seq)) ≠ [] ∧
          st₁ = acceptState st a r (st.totalBbEvals + (orc r).bbEvals)
            ((uniqueBySeq ((orc r).proposals.filter cfg.feasible)).filter
              (fun e => !(st.allSeqs.contains e.seq))))) := by
  cases hp : prepareActive cfg st r (orc r).backtrackDraw (orc r).randDraw with
  | error e =>
    unfold roundStep at h
    rw [hp] at h
    simp at h
  | ok a =>
    refine ⟨a, rfl, ?_⟩
    by_cases h1 : (orc r).proposals.filter cfg.feasible = []
    · left
      exact ⟨h1, (Except.ok.inj ((roundStep_feas_empty hp h1).symm.trans h)).symm⟩
    · by_cases h3 : (uniqueBySeq ((orc r).proposals.filter cfg.feasible)).filter
          (fun e => !(st.allSeqs.contains e.seq)) = []
      · right; left
        exact ⟨h1, h3,
          (Except.ok.inj ((roundStep_novelty_empty hp h1 h3).symm.trans h)).symm⟩
      · right; right
        exact ⟨h1, h3,
          (Except.ok.inj ((roundStep_accept hp h1 h3).symm.trans h)).symm⟩

theorem runTo_succ {cfg : Config} {orc : Nat → RoundOracle} {inPool : List Entry}
    {as0 : List Nat} {at0 : List (List Int)} {r : Nat} {st st₁ : OptState}
    (h₀ : runTo cfg orc inPool as0 at0 r = .ok st)
    (h₁ : runTo cfg orc inPool as0 at0 (r + 1) = .ok st₁) :
    roundStep cfg orc st (r + 1) = .ok st₁ := by
  unfold runTo at h₁
  rw [h₀] at h₁
  exact h₁

/-! The run-level frontier identity: at every round the current frontier is
the minimize-direction frontier of (round-0 maximize-direction frontier ++
all accepted proposals), because the incremental recomputation over
(previous frontier ++ new proposals) is complete for a fixed direction. -/

theorem runTo_frontier_inv {cfg : Config} {orc : Nat → RoundOracle}
    {inPool : List Entry} {as0 : List Nat} {at0 : List (List Int)} {n : Nat}
    (hpool : ∀ e ∈ inPool, e.obj.length = n)
    (hprops : ∀ r, ∀ e ∈ (orc r).proposals, e.obj.length = n) :
    ∀ r st, runTo cfg orc inPool as0 at0 r = .ok st →
      (∀ e ∈ st.poolCandidates, e.obj.length = n) ∧
      ∃ acc, st.poolCandidates = inPool.filter cfg.feasible ++ acc ∧
        st.paretoFront = pareto_frontier
          (pareto_frontier (inPool.filter cfg.feasible) true ++ acc) false := by
  intro r
  induction r with
  | zero =>
    intro st h
    have hst : st = initState cfg inPool as0 at0 := (Except.ok.inj h).symm
    subst hst
    constructor
    · intro e he
      have he2 : e ∈ inPool.filter cfg.feasible := by
        simpa [initState] using he
      exact hpool e (List.mem_filter.mp he2).1
    · refine ⟨[], by simp [initState], ?_⟩
      rw [List.append_nil, minF_of_maxF]
      simp [initState]
  | succ r ih =>
    intro st₁ h₁
    cases h₀ : runTo cfg orc inPool as0 at0 r with
    | error e =>
      unfold runTo at h₁
      rw [h₀] at h₁
      simp at h₁
    | ok st =>
      have hstep : roundStep cfg orc st (r + 1) = .ok st₁ := runTo_succ h₀ h₁
      obtain ⟨hwf, acc, hpool_eq, hfront⟩ := ih st h₀
      obtain ⟨a, hprep, hcase⟩ := roundStep_ok_inv hstep
      have hSwf : ∀ e ∈ pareto_frontier (inPool.filter cfg.feasible) true ++ acc,
          e.obj.length = n := by
        intro e he
        rcases List.mem_append.mp he with hI | hA
        · have : e ∈ inPool.filter cfg.feasible :=
            (pareto_frontier_sublist _ _).subset hI
          exact hpool e (List.mem_filter.mp this).1
        · refine hwf e ?_
          rw [hpool_eq]
          exact List.mem_append.mpr (Or.inr hA)
      rcases hcase with ⟨hfe, rfl⟩ | ⟨hfne, hne, rfl⟩ | ⟨hfne, hnne, rfl⟩
      · constructor
        · intro e he
          exact hwf e (by simpa [skipState] using he)
        · exact ⟨acc, by simpa [skipState] using hpool_eq,
            by simpa [skipState] using hfront⟩
      · constructor
        · intro e he
          exact hwf e (by simpa [skipLogState] using he)
        · exact ⟨acc, by simpa [skipLogState] using hpool_eq,
            by simpa [skipLogState] using hfront⟩
      · have hP3wf : ∀ e ∈ (uniqueBySeq ((orc (r + 1)).proposals.filter
            cfg.feasible)).filter (fun e => !(st.allSeqs.contains e.seq)),
            e.obj.length = n := by
          intro e he
          have h1 : e ∈ uniqueBySeq ((orc (r + 1)).proposals.filter cfg.feasible) :=
            (List.mem_filter.mp he).1
          have h2 : e ∈ (orc (r + 1)).proposals.filter cfg.feasible :=
            mem_uniqueBySeq h1
          exact hprops (r + 1) e (List.mem_filter.mp h2).1
        constructor
        · intro e he
          have he2 : e ∈ st.poolCandidates ++
              (uniqueBySeq ((orc (r + 1)).proposals.filter cfg.feasible)).filter
                (fun e2 => !(st.allSeqs.contains e2.seq)) := by
            simpa [acceptState] using he
          rcases List.mem_append.mp he2 with h | h
          · exact hwf e h
          · exact hP3wf e h
        · refine ⟨acc ++ (uniqueBySeq ((orc (r + 1)).proposals.filter
            cfg.feasible)).filter (fun e => !(st.allSeqs.contains e.seq)), ?_, ?_⟩
          · show (acceptState st a (r + 1) (st.totalBbEvals + (orc (r + 1)).bbEvals)
                _).poolCandidates = _
            simp only [acceptState]
            rw [hpool_eq, List.append_assoc]
          · show (acceptState st a (r + 1) (st.totalBbEvals + (orc (r + 1)).bbEvals)
                _).paretoFront = _
            simp only [acceptState]
            rw [hfront,
              pareto_frontier_append
                (pareto_frontier (inPool.filter cfg.feasible) true ++ acc) _
                hSwf hP3wf,
              List.append_assoc]

/-! The history invariant: the frontier and the history never acquire
duplicate sequences, frontier sequences stay inside the history and the
observed set, and each round appends to the history exactly the frontier
points whose sequence is new. -/

theorem histInv_init {cfg : Config} {inPool : List Entry} {as0 : List Nat}
    {at0 : List (List Int)}
    (hN : ((inPool.filter cfg.feasible).map (fun e => e.seq)).Nodup)
    (hSub : ∀ s ∈ (inPool.filter cfg.feasible).map (fun e => e.seq), s ∈ as0) :
    HistInv (initState cfg inPool as0 at0) := by
  have hsub : (pareto_frontier (inPool.filter cfg.feasible) true).Sublist
      (inPool.filter cfg.feasible) := pareto_frontier_sublist _ _
  have hsubm := hsub.map (fun e => e.seq)
  refine ⟨?_, ?_, ?_, ?_⟩
  · intro s hs
    have hs2 : s ∈ (inPool.filter cfg.feasible).map (fun e => e.seq) :=
      hsubm.subset (by simpa [initState] using hs)
    simpa [initState] using hSub s hs2
  · have := List.Nodup.sublist hsubm hN
    simpa [initState] using this
  · have := List.Nodup.sublist hsubm hN
    simpa [initState] using this
  · intro s hs
    simp only [initState] at hs ⊢
    exact hs

theorem histInv_step {cfg : Config} {orc : Nat → RoundOracle} {st st₁ : OptState}
    {r : Nat} (hInv : HistInv st) (hstep : roundStep cfg orc st r = .ok st₁) :
    HistInv st₁ ∧
      st₁.hist = st.hist ++ st₁.paretoFront.filter
        (fun e => !((st.hist.map (fun h2 => h2.seq)).contains e.seq)) := by
  obtain ⟨hFA, hFN, hHN, hFH⟩ := hInv
  obtain ⟨a, hprep, hcase⟩ := roundStep_ok_inv hstep
  have hemp : st.paretoFront.filter
      (fun e => !((st.hist.map (fun h2 => h2.seq)).contains e.seq)) = [] := by
    rw [List.filter_eq_nil_iff]
    intro e he
    have : e.seq ∈ st.hist.map (fun h2 => h2.seq) :=
      hFH _ (List.mem_map_of_mem _ he)
    simp [this]
  rcases hcase with ⟨hfe, rfl⟩ | ⟨hfne, hne, rfl⟩ | ⟨hfne, hnne, rfl⟩
  · refine ⟨⟨by simpa [skipState] using hFA, by simpa [skipState] using hFN,
      by simpa [skipState] using hHN, by simpa [skipState] using hFH⟩, ?_⟩
    show (skipState st a (st.totalBbEvals + (orc r).bbEvals)).hist = _
    simp only [skipState]
    rw [hemp, List.append_nil]
  · refine ⟨⟨by simpa [skipLogState] using hFA, by simpa [skipLogState] using hFN,
      by simpa [skipLogState] using hHN, by simpa [skipLogState] using hFH⟩, ?_⟩
    show (skipLogState st a r (st.totalBbEvals + (orc r).bbEvals)).hist = _
    simp only [skipLogState]
    rw [hemp, List.append_nil]
  · -- accepted round
    have hp3sub : ((uniqueBySeq ((orc r).proposals.filter cfg.feasible)).filter
        (fun e => !(st.allSeqs.contains e.seq))).Sublist
        (uniqueBySeq ((orc r).proposals.filter cfg.feasible)) :=
      List.filter_sublist _
    have hp3N : (((uniqueBySeq ((orc r).proposals.filter cfg.feasible)).filter
        (fun e => !(st.allSeqs.contains e.seq))).map (fun e => e.seq)).Nodup :=
      List.Nodup.sublist (hp3sub.map (fun e => e.seq)) (uniqueBySeq_seq_nodup _)
    have hp3NotAll : ∀ e ∈ (uniqueBySeq ((orc r).proposals.filter
        cfg.feasible)).filter (fun e => !(st.allSeqs.contains e.seq)),
        e.seq ∉ st.allSeqs := by
      intro e he
      have := (List.mem_filter.mp he).2
      simpa using this
    have hFsub : ((pareto_frontier (st.paretoFront ++
        (uniqueBySeq ((orc r).proposals.filter cfg.feasible)).filter
          (fun e => !(st.allSeqs.contains e.seq))) false).map
        (fun e => e.seq)).Sublist
        ((st.paretoFront.map (fun e => e.seq)) ++
          (((uniqueBySeq ((orc r).proposals.filter cfg.feasible)).filter
            (fun e => !(st.allSeqs.contains e.seq))).map (fun e => e.seq))) := by
      rw [← List.map_append]
      exact (pareto_frontier_sublist _ _).map (fun e => e.seq)
    have hFNodup : ((pareto_frontier (st.paretoFront ++
        (uniqueBySeq ((orc r).proposals.filter cfg.feasible)).filter
          (fun e => !(st.allSeqs.contains e.seq))) false).map
        (fun e => e.seq)).Nodup := by
      refine List.Nodup.sublist hFsub (List.nodup_append.mpr ⟨hFN, hp3N, ?_⟩)
      intro s hsF hsP
      obtain ⟨e, heP, hes⟩ := List.mem_map.mp hsP
      exact hp3NotAll e heP (hes ▸ hFA s hsF)
    refine ⟨⟨?_, ?_, ?_, ?_⟩, ?_⟩
    · -- frontier seqs observed
      intro s hs
      have hs2 := hFsub.subset (by simpa [acceptState] using hs)
      simp only [acceptState]
      rcases List.mem_append.mp hs2 with h | h
      · exact List.mem_append.mpr (Or.inl (hFA s h))
      · obtain ⟨e, heP, hes⟩ := List.mem_map.mp h
        exact List.mem_append.mpr (Or.inr (by
          exact hes ▸ List.mem_map_of_mem (fun e2 => e2.seq) heP))
    · simpa [acceptState] using hFNodup
    · -- history nodup
      show ((st.hist ++ _).map (fun e => e.seq)).Nodup
      rw [List.map_append]
      refine List.nodup_append.mpr ⟨hHN, ?_, ?_⟩
      · have hsubf : ((pareto_frontier (st.paretoFront ++
            (uniqueBySeq ((orc r).proposals.filter cfg.feasible)).filter
              (fun e => !(st.allSeqs.contains e.seq))) false).filter
            (fun e => !((st.hist.map (fun h2 => h2.seq)).contains e.seq))).Sublist
            (pareto_frontier (st.paretoFront ++
              (uniqueBySeq ((orc r).proposals.filter cfg.feasible)).filter
                (fun e => !(st.allSeqs.contains e.seq))) false) :=
          List.filter_sublist _
        exact List.Nodup.sublist (hsubf.map (fun e => e.seq)) hFNodup
      · intro s hsH hsNew
        obtain ⟨e, heNew, hes⟩ := List.mem_map.mp hsNew
        have := (List.mem_filter.mp heNew).2
        rw [hes] at this
        simp [hsH] at this
    · -- frontier seqs in history
      intro s hs
      simp only [acceptState] at hs ⊢
      rw [List.map_append]
      by_cases hmem : s ∈ st.hist.map (fun h2 => h2.seq)
      · exact List.mem_append.mpr (Or.inl hmem)
      · obtain ⟨e, heF, hes⟩ := List.mem_map.mp hs
        refine List.mem_append.mpr (Or.inr ?_)
        refine hes ▸ List.mem_map_of_mem (fun e2 => e2.seq) (List.mem_filter.mpr ⟨heF, ?_⟩)
        rw [hes]
        simpa using hmem
    · simp [acceptState]

theorem histInv_run {cfg : Config} {orc : Nat → RoundOracle}
    {inPool : List Entry} {as0 : List Nat} {at0 : List (List Int)}
    (hN : ((inPool.filter cfg.feasible).map (fun e => e.seq)).Nodup)
    (hSub : ∀ s ∈ (inPool.filter cfg.feasible).map (fun e => e.seq), s ∈ as0) :
    ∀ r st, runTo cfg orc inPool as0 at0 r = .ok st → HistInv st := by
  intro r
  induction r with
  | zero =>
    intro st h
    have hst : st = initState cfg inPool as0 at0 := (Except.ok.inj h).symm
    subst hst
    exact histInv_init hN hSub
  | succ r ih =>
    intro st₁ h₁
    cases h₀ : runTo cfg orc inPool as0 at0 r with
    | error e =>
      unfold runTo at h₁
      rw [h₀] at h₁
      simp at h₁
    | ok st =>
      exact (histInv_step (ih st h₀) (runTo_succ h₀ h₁)).1

/-! Sampler behavior: the augmentation steps always request at most the
population size, so the insufficient-population branch is dead code from the
round loop, and any sampler failure can only be an invalid external draw. -/

theorem sampleWR_ok {popLen num : Nat} {draw : List Nat} (h : num ≤ popLen)
    (hlen : draw.length = num) (hnd : draw.Nodup)
    (hlt : ∀ i ∈ draw, i < popLen) :
    sampleWithoutReplacement popLen num draw = .ok draw := by
  have hcond : (draw.length == num && decide draw.Nodup &&
      (draw.all fun i => decide (i < popLen))) = true := by
    simp [hlen, hnd, List.all_eq_true]
    exact hlt
  unfold sampleWithoutReplacement
  rw [if_neg (by omega), if_pos hcond]

theorem sampleWR_error {popLen num : Nat} {draw : List Nat} {e : SamplerError}
    (hnum : num ≤ popLen)
    (h : sampleWithoutReplacement popLen num draw = .error e) :
    e = .invalidDraw := by
  unfold sampleWithoutReplacement at h
  rw [if_neg (by omega)] at h
  by_cases h2 : (draw.length == num && decide draw.Nodup &&
      (draw.all fun i => decide (i < popLen))) = true
  · rw [if_pos h2] at h
    simp at h
  · rw [if_neg h2] at h
    exact (Except.error.inj h).symm

theorem backtrackAugment_error {cfg : Config} {hist active : List Entry}
    {draw : List Nat} {e : SamplerError}
    (h : backtrackAugment cfg hist active draw = .error e) :
    e = .invalidDraw := by
  unfold backtrackAugment at h
  split at h
  · split at h
    · next e2 heq =>
      exact (Except.error.inj h) ▸ sampleWR_error (Nat.min_le_right _ _) heq
    · next idxs heq =>
      split at h <;> simp at h
  · simp at h

theorem randomAugment_error {cfg : Config} {pool active : List Entry}
    {draw : List Nat} {e : SamplerError}
    (h : randomAugment cfg pool active draw = .error e) :
    e = .invalidDraw := by
  unfold randomAugment at h
  split at h
  · split at h
    · next e2 heq =>
      exact (Except.error.inj h) ▸ sampleWR_error (Nat.min_le_right _ _) heq
    · next idxs heq =>
      simp at h
  · simp at h

theorem prepareActive_error {cfg : Config} {st : OptState} {r : Nat}
    {bd rd : List Nat} {e : SamplerError}
    (h : prepareActive cfg st r bd rd = .error e) : e = .invalidDraw := by
  unfold prepareActive at h
  split at h
  · next e2 heq =>
    exact (Except.error.inj h) ▸ backtrackAugment_error heq
  · next a heq =>
    exact randomAugment_error h

theorem roundStep_error {cfg : Config} {orc : Nat → RoundOracle}
    {st : OptState} {r : Nat} {e : SamplerError}
    (h : roundStep cfg orc st r = .error e) : e = .invalidDraw := by
  unfold roundStep at h
  split at h
  · next e2 heq =>
    exact (Except.error.inj h) ▸ prepareActive_error heq
  · split at h
    · simp at h
    · split at h <;> simp at h

theorem runTo_error {cfg : Config} {orc : Nat → RoundOracle}
    {inPool : List Entry} {as0 : List Nat} {at0 : List (List Int)}
    {r : Nat} {e : SamplerError}
    (h : runTo cfg orc inPool as0 at0 r = .error e) : e = .invalidDraw := by
  induction r generalizing e with
  | zero => simp [runTo] at h
  | succ r ih =>
    unfold runTo at h
    cases h0 : runTo cfg orc inPool as0 at0 r with
    | error e2 =>
      rw [h0] at h
      exact (Except.error.inj h) ▸ ih h0
    | ok st =>
      rw [h0] at h
      exact roundStep_error h

/-! Length bounds of the augmentation steps. -/

theorem backtrackAugment_length {cfg : Config} {hist active : List Entry}
    {draw : List Nat} {a : List Entry}
    (h : backtrackAugment cfg hist active draw = .ok a) :
    a.length ≤ max cfg.batchSize active.length := by
  unfold backtrackAugment at h
  split at h
  · next hlt =>
    split at h
    · simp at h
    · next idxs heq =>
      split at h
      · next hk =>
        have ha := Except.ok.inj h
        rw [← ha, List.length_append, List.length_map, List.length_take]
        omega
      · next hk =>
        have ha := Except.ok.inj h
        rw [← ha]
        omega
  · next hge =>
    have ha := Except.ok.inj h
    rw [← ha]
    omega

theorem randomAugment_length {cfg : Config} {pool active : List Entry}
    {draw : List Nat} {a : List Entry}
    (h : randomAugment cfg pool active draw = .ok a) :
    a.length ≤ max cfg.batchSize active.length := by
  unfold randomAugment at h
  split at h
  · next hlt =>
    split at h
    · simp at h
    · next idxs heq =>
      have ha := Except.ok.inj h
      rw [← ha, List.length_append, List.length_map, List.length_take]
      omega
  · next hge =>
    have ha := Except.ok.inj h
    rw [← ha]
    omega

/-! Counting helpers for the backtrack-augmentation scenario. -/

theorem getD_mem_of_lt {l : List Entry} {i : Nat} (h : i < l.length) :
    l.getD i default ∈ l := by
  rw [List.getD_eq_getElem l default h]
  exact List.getElem_mem h

theorem filter_bool_partition {α : Type} (p q : α → Bool) (l : List α)
    (h : ∀ a, q a = !(p a)) :
    (l.filter p).length + (l.filter q).length = l.length := by
  induction l with
  | nil => rfl
  | cons a t ih =>
    rw [List.filter_cons, List.filter_cons, h a]
    cases hpa : p a <;> simp [hpa] <;> omega

theorem filter_contains_length_le {idxs : List Nat} {hist : List Entry}
    {activeSeqs : List Nat} (hnd : idxs.Nodup)
    (hR : ∀ i ∈ idxs, i < hist.length)
    (hhN : (hist.map (fun e => e.seq)).Nodup) :
    (idxs.filter (fun i =>
      (activeSeqs.contains (hist.getD i default).seq))).length ≤
      activeSeqs.length := by
  have hLnd : (idxs.filter (fun i =>
      (activeSeqs.contains (hist.getD i default).seq))).Nodup :=
    List.Nodup.filter _ hnd
  have hinj : ∀ i ∈ idxs.filter (fun i2 =>
      (activeSeqs.contains (hist.getD i2 default).seq)),
      ∀ j ∈ idxs.filter (fun i2 =>
      (activeSeqs.contains (hist.getD i2 default).seq)),
      (hist.getD i default).seq = (hist.getD j default).seq → i = j := by
    intro i hi j hj hij
    have hiR : i < hist.length := hR i (List.mem_of_mem_filter hi)
    have hjR : j < hist.length := hR j (List.mem_of_mem_filter hj)
    have hiM : i < (hist.map (fun e => e.seq)).length := by
      rw [List.length_map]
      exact hiR
    have hjM : j < (hist.map (fun e => e.seq)).length := by
      rw [List.length_map]
      exact hjR
    have h1 : (hist.map (fun e => e.seq))[i] = (hist.getD i default).seq := by
      rw [List.getElem_map, List.getD_eq_getElem hist default hiR]
    have h2 : (hist.map (fun e => e.seq))[j] = (hist.getD j default).seq := by
      rw [List.getElem_map, List.getD_eq_getElem hist default hjR]
    exact (List.Nodup.getElem_inj_iff hhN).mp (h1.trans (hij.trans h2.symm))
  have hmapN := List.Nodup.map_on hinj hLnd
  have hsub : ((idxs.filter (fun i =>
      (activeSeqs.contains (hist.getD i default).seq))).map
      (fun i => (hist.getD i default).seq)) ⊆ activeSeqs := by
    intro s hs
    obtain ⟨i, hi, rfl⟩ := List.mem_map.mp hs
    have := (List.mem_filter.mp hi).2
    simpa using this
  calc (idxs.filter (fun i =>
      (activeSeqs.contains (hist.getD i default).seq))).length
      = ((idxs.filter (fun i =>
          (activeSeqs.contains (hist.getD i default).seq))).map
          (fun i => (hist.getD i default).seq)).length := by
        rw [List.length_map]
    _ = ((idxs.filter (fun i =>
          (activeSeqs.contains (hist.getD i default).seq))).map
          (fun i => (hist.getD i default).seq)).toFinset.card :=
        (List.toFinset_card_of_nodup hmapN).symm
    _ ≤ activeSeqs.toFinset.card :=
        Finset.card_le_card (fun s hs =>
          List.mem_toFinset.mpr (hsub (List.mem_toFinset.mp hs)))
    _ ≤ activeSeqs.length := List.toFinset_card_le _

/-! Claim theorems. -/

/-- Claim C9 (confirmed): the frontier operator is idempotent — applying
`pareto_frontier` to its own output returns the same (candidates, objectives)
result as applying it once, for every pool and either dominance direction. -/
theorem claim9_frontier_idempotent (pool : List Entry) (mx : Bool) :
    pareto_frontier (pareto_frontier pool mx) mx = pareto_frontier pool mx := by
  rw [pareto_frontier_eq_filter (pareto_frontier pool mx) mx]
  apply List.filter_eq_self.mpr
  intro e he
  rw [nondom_iff]
  intro y hy
  exact nondom_iff.mp (mem_pareto_frontier.mp he).2 y (mem_pareto_frontier.mp hy).1

/-- Claim C8 (confirmed): a pool of size 1 is returned unchanged by
`pareto_frontier`; every non-dominated point of a pool is retained in the
frontier, and in particular when two entries carry identical objective
vectors and one of them is non-dominated, both are retained. -/
theorem claim8_singleton_and_ties :
    (∀ (e : Entry) (mx : Bool), pareto_frontier [e] mx = [e]) ∧
    (∀ (pool : List Entry) (mx : Bool) (x : Entry), x ∈ pool →
      (∀ y ∈ pool, domE mx y x = false) → x ∈ pareto_frontier pool mx) ∧
    (∀ (pool : List Entry) (mx : Bool) (x₁ x₂ : Entry), x₁ ∈ pool → x₂ ∈ pool →
      x₁.obj = x₂.obj → (∀ y ∈ pool, domE mx y x₁ = false) →
      x₁ ∈ pareto_frontier pool mx ∧ x₂ ∈ pareto_frontier pool mx) := by
  refine ⟨fun e mx => rfl, ?_, ?_⟩
  · intro pool mx x hx hnd
    exact mem_pareto_frontier.mpr ⟨hx, nondom_iff.mpr hnd⟩
  · intro pool mx x₁ x₂ h1 h2 hobj hnd
    refine ⟨mem_pareto_frontier.mpr ⟨h1, nondom_iff.mpr hnd⟩,
      mem_pareto_frontier.mpr ⟨h2, ?_⟩⟩
    rw [← nondom_congr_obj hobj]
    exact nondom_iff.mpr hnd

/-- Witness for C8 at a concrete pool with two identical objective rows. -/
theorem claim8_witness :
    (⟨0, [1, 2]⟩ : Entry) ∈ pareto_frontier [⟨0, [1, 2]⟩, ⟨1, [1, 2]⟩] false ∧
    (⟨1, [1, 2]⟩ : Entry) ∈ pareto_frontier [⟨0, [1, 2]⟩, ⟨1, [1, 2]⟩] false :=
  claim8_singleton_and_ties.2.2 [⟨0, [1, 2]⟩, ⟨1, [1, 2]⟩] false
    ⟨0, [1, 2]⟩ ⟨1, [1, 2]⟩ (by decide) (by decide) rfl (by decide)

/-- Claim C7 (confirmed): the run seeds the archive with the frontier computed
under `maximize=True`, while the per-round contraction and the per-round
global recomputation use the default minimize direction — two opposite
dominance conventions over the same stored objective vectors.  On the example
pool {[0,0], [1,1]} the round-0 frontier is `[1,1]` (maximize) although the
minimize frontier of the same pool is `[0,0]`, and the round-1 recomputation
then filters under minimize. -/
theorem claim7_direction_mismatch :
    (initState cfgEx inPoolEx as0Ex at0Ex).paretoFront =
        pareto_frontier inPoolEx true ∧
    pareto_frontier inPoolEx true = [e11] ∧
    pareto_frontier inPoolEx false = [e00] ∧
    contractStep cfgEx (initState cfgEx inPoolEx as0Ex at0Ex).active 1 =
        pareto_frontier inPoolEx false ∧
    runTo cfgEx orcEx inPoolEx as0Ex at0Ex 1 = .ok stEx1 ∧
    stEx1.paretoFront = pareto_frontier ([e11] ++ [e22]) false ∧
    stEx1.paretoFront = [e11] :=
  ⟨rfl, rfl, rfl, rfl, rfl, rfl, rfl⟩

/-- Claim C10 (confirmed): both augmentation steps request
`min(batch_size, population)` indices, never more than the population, so the
insufficient-population failure of the without-replacement sampler is
unreachable — from each augmentation step and from the whole round loop, for
every configuration and every oracle. -/
theorem claim10_sampler_safe :
    (∀ (cfg : Config) (hist active : List Entry) (draw : List Nat),
      backtrackAugment cfg hist active draw ≠
        .error .insufficientPopulation) ∧
    (∀ (cfg : Config) (pool active : List Entry) (draw : List Nat),
      randomAugment cfg pool active draw ≠ .error .insufficientPopulation) ∧
    (∀ (cfg : Config) (orc : Nat → RoundOracle) (inPool : List Entry)
      (as0 : List Nat) (at0 : List (List Int)) (r : Nat),
      runTo cfg orc inPool as0 at0 r ≠ .error .insufficientPopulation) := by
  refine ⟨?_, ?_, ?_⟩
  · intro cfg hist active draw h
    exact SamplerError.noConfusion (backtrackAugment_error h)
  · intro cfg pool active draw h
    exact SamplerError.noConfusion (randomAugment_error h)
  · intro cfg orc inPool as0 at0 r h
    exact SamplerError.noConfusion (runTo_error h)

/-- Witness for C10 at a concrete run. -/
theorem claim10_witness :
    runTo cfgEx orcEx inPoolEx as0Ex at0Ex 1 ≠
      .error .insufficientPopulation :=
  claim10_sampler_safe.2.2 cfgEx orcEx inPoolEx as0Ex at0Ex 1

/-- Counterexample to C3 as stated: with `batch_size = 1` and an active set
whose contraction keeps 2 mutually non-dominated points, the state machine
ends with 2 > 1 active points although both the pool and the history have
points available — the bound `|ActiveSet| ≤ batch_size` fails, and not
because of insufficient unique supply. -/
theorem claim3_counterexample :
    prepareActive cfg3Ex st3Ex 1 [] [] = .ok [⟨10, [0, 1]⟩, ⟨11, [1, 0]⟩] ∧
    cfg3Ex.batchSize = 1 ∧
    st3Ex.poolCandidates.length = 2 ∧ st3Ex.hist.length = 2 :=
  ⟨rfl, rfl, rfl, rfl⟩

/-- Claim C3 (corrected): after the augmentation state machine completes the
active set has at most `max batch_size |contracted active set|` elements —
the two augmentation steps never push a set that is below `batch_size`
beyond it, but contraction does not truncate, so the plain
`|ActiveSet| ≤ batch_size` bound holds only when the set entering
augmentation is already within `batch_size`. -/
theorem claim3_augmentation_bound (cfg : Config) (st : OptState) (r : Nat)
    (bd rd : List Nat) (a : List Entry)
    (h : prepareActive cfg st r bd rd = .ok a) :
    a.length ≤ max cfg.batchSize (contractStep cfg st.active r).length := by
  unfold prepareActive at h
  cases hb : backtrackAugment cfg st.hist (contractStep cfg st.active r) bd with
  | error e =>
    rw [hb] at h
    simp at h
  | ok a2 =>
    rw [hb] at h
    have h2 : randomAugment cfg st.poolCandidates a2 rd = .ok a := h
    have hb1 := backtrackAugment_length hb
    have hb2 := randomAugment_length h2
    omega

/-- Witness for C3 at the counterexample input. -/
theorem claim3_witness :
    ([⟨10, [0, 1]⟩, ⟨11, [1, 0]⟩] : List Entry).length ≤
      max cfg3Ex.batchSize (contractStep cfg3Ex st3Ex.active 1).length :=
  claim3_augmentation_bound cfg3Ex st3Ex 1 [] []
    [⟨10, [0, 1]⟩, ⟨11, [1, 0]⟩] rfl

/-- Claim C4 (confirmed): with `batch_size = 5`, an active set of 2 unique
candidates, a history of 10 distinct-sequence entries and a pool of 50, the
backtrack augmentation always appends exactly `batch_size − |active| = 3`
history points whose sequences are not active, bringing the active set to
exactly 5, and the random augmentation then draws nothing from the pool. -/
theorem claim4_scenario_augmentation (cfg : Config)
    (hist pool active : List Entry) (bd rd : List Nat)
    (hbatch : cfg.batchSize = 5)
    (hact : active.length = 2)
    (hhist : hist.length = 10)
    (hhistN : (hist.map (fun e => e.seq)).Nodup)
    (_hpool : pool.length = 50)
    (hbd : bd.length = 5) (hbdN : bd.Nodup) (hbdR : ∀ i ∈ bd, i < 10) :
    ∃ keep : List Entry,
      backtrackAugment cfg hist active bd = .ok (active ++ keep) ∧
      randomAugment cfg pool (active ++ keep) rd = .ok (active ++ keep) ∧
      keep.length = 3 ∧ (active ++ keep).length = 5 ∧
      ∀ e ∈ keep, e ∈ hist ∧ e.seq ∉ active.map (fun e2 => e2.seq) := by
  have hsample : sampleWithoutReplacement hist.length
      (min cfg.batchSize hist.length) bd = .ok bd := by
    apply sampleWR_ok
    · omega
    · omega
    · exact hbdN
    · intro i hi
      have := hbdR i hi
      omega
  have hrem : (bd.filter (fun i =>
      ((active.map (fun e => e.seq)).contains (hist.getD i default).seq))).length
      ≤ 2 := by
    have hle : (bd.filter (fun i =>
        ((active.map (fun e => e.seq)).contains
          (hist.getD i default).seq))).length ≤
        (active.map (fun e => e.seq)).length :=
      filter_contains_length_le hbdN
        (fun i hi => by have := hbdR i hi; omega) hhistN
    have : (active.map (fun e => e.seq)).length = 2 := by
      rw [List.length_map, hact]
    omega
  have hpart := filter_bool_partition
    (fun i => ((active.map (fun e => e.seq)).contains (hist.getD i default).seq))
    (fun i => !((active.map (fun e => e.seq)).contains (hist.getD i default).seq))
    bd (fun i => rfl)
  have hkeep : 3 ≤ (bd.filter (fun i =>
      !((active.map (fun e => e.seq)).contains (hist.getD i default).seq))).length := by
    omega
  have hklen : (((bd.filter (fun i =>
      !((active.map (fun e => e.seq)).contains (hist.getD i default).seq))).take
      (min (min cfg.batchSize hist.length) (cfg.batchSize - active.length))).map
      (fun i => hist.getD i default)).length = 3 := by
    rw [List.length_map, List.length_take]
    omega
  refine ⟨((bd.filter (fun i =>
      !((active.map (fun e => e.seq)).contains (hist.getD i default).seq))).take
      (min (min cfg.batchSize hist.length) (cfg.batchSize - active.length))).map
      (fun i => hist.getD i default), ?_, ?_, hklen, ?_, ?_⟩
  · unfold backtrackAugment
    rw [if_pos (by omega), hsample]
    show (if 0 < (bd.filter (fun i =>
        !((active.map (fun e => e.seq)).contains
          (hist.getD i default).seq))).length then _ else _) = _
    rw [if_pos (by omega)]
  · unfold randomAugment
    rw [if_neg]
    rw [List.length_append, hklen]
    omega
  · rw [List.length_append, hklen]
    omega
  · intro e he
    obtain ⟨i, hi, rfl⟩ := List.mem_map.mp he
    have hi2 : i ∈ bd.filter (fun i2 =>
        !((active.map (fun e2 => e2.seq)).contains (hist.getD i2 default).seq)) :=
      List.take_subset _ _ hi
    have hiR : i < hist.length := by
      have := hbdR i (List.mem_of_mem_filter hi2)
      omega
    refine ⟨getD_mem_of_lt hiR, ?_⟩
    have := (List.mem_filter.mp hi2).2
    simpa using this

/-- Witness for C4 at a concrete history, active set and draw. -/
theorem claim4_witness :
    ∃ keep : List Entry,
      backtrackAugment cfg4Ex hist4Ex active4Ex [0, 1, 2, 3, 4] =
        .ok (active4Ex ++ keep) ∧
      randomAugment cfg4Ex pool4Ex (active4Ex ++ keep) [] =
        .ok (active4Ex ++ keep) ∧
      keep.length = 3 ∧ (active4Ex ++ keep).length = 5 ∧
      ∀ e ∈ keep, e ∈ hist4Ex ∧ e.seq ∉ active4Ex.map (fun e2 => e2.seq) :=
  claim4_scenario_augmentation cfg4Ex hist4Ex pool4Ex active4Ex
    [0, 1, 2, 3, 4] [] rfl rfl (by decide) (by decide) rfl rfl (by decide)
    (by decide)

/-- Counterexample to C2 as stated: a round whose (nonempty) proposal set is
entirely infeasible continues to the next round without logging any metric
snapshot — the metric stream is unchanged, contradicting the claimed
"log a snapshot, then continue" behavior for the feasibility step. -/
theorem claim2_counterexample :
    roundStep cfg2Ex orc2Ex st2Ex 1 = .ok st2Ex1 ∧
    st2Ex1.metricsLog = st2Ex.metricsLog ∧
    (orc2Ex 1).proposals ≠ [] ∧
    (orc2Ex 1).proposals.filter cfg2Ex.feasible = [] := by
  refine ⟨rfl, rfl, ?_, rfl⟩
  decide

/-- Claim C2 (corrected): whichever filter step empties the proposal set, the
loop continues to the next round without raising an error — but only the
novelty-empty branch logs a metric snapshot; the feasibility-empty branch
leaves the metric stream unchanged, and the duplicate-sequence filter can
never empty a nonempty batch. -/
theorem claim2_empty_filter_branches (cfg : Config) (orc : Nat → RoundOracle)
    (st : OptState) (r : Nat) (a : List Entry)
    (hprep : prepareActive cfg st r (orc r).backtrackDraw (orc r).randDraw =
      .ok a) :
    ((orc r).proposals.filter cfg.feasible = [] →
      roundStep cfg orc st r =
        .ok (skipState st a (st.totalBbEvals + (orc r).bbEvals)) ∧
      (skipState st a (st.totalBbEvals + (orc r).bbEvals)).metricsLog =
        st.metricsLog) ∧
    ((orc r).proposals.filter cfg.feasible ≠ [] →
      uniqueBySeq ((orc r).proposals.filter cfg.feasible) ≠ []) ∧
    ((orc r).proposals.filter cfg.feasible ≠ [] →
      (uniqueBySeq ((orc r).proposals.filter cfg.feasible)).filter
        (fun e => !(st.allSeqs.contains e.seq)) = [] →
      roundStep cfg orc st r =
        .ok (skipLogState st a r (st.totalBbEvals + (orc r).bbEvals)) ∧
      (skipLogState st a r (st.totalBbEvals + (orc r).bbEvals)).metricsLog =
        st.metricsLog ++
          [⟨r, st.normTargets, st.totalBbEvals + (orc r).bbEvals⟩]) := by
  refine ⟨?_, ?_, ?_⟩
  · intro hfe
    exact ⟨roundStep_feas_empty hprep hfe, rfl⟩
  · intro hne
    exact uniqueBySeq_ne_nil hne
  · intro hfne hne
    exact ⟨roundStep_novelty_empty hprep hfne hne, rfl⟩

/-- Witness for C2 at the concrete infeasible-proposal round. -/
theorem claim2_witness :
    roundStep cfg2Ex orc2Ex st2Ex 1 =
      .ok (skipState st2Ex [⟨0, [0, 0]⟩]
        (st2Ex.totalBbEvals + (orc2Ex 1).bbEvals)) ∧
    (skipState st2Ex [⟨0, [0, 0]⟩]
      (st2Ex.totalBbEvals + (orc2Ex 1).bbEvals)).metricsLog =
      st2Ex.metricsLog :=
  (claim2_empty_filter_branches cfg2Ex orc2Ex st2Ex 1 [⟨0, [0, 0]⟩] rfl).1 rfl

/-- Counterexample to C5 as stated: a one-round run whose single round loses
all proposals to the feasibility filter returns the round-0 metrics record
(round index 0), not the final round's record. -/
theorem claim5_counterexample :
    optimize cfg2Ex orc2Ex [⟨0, [0, 0]⟩] [0] [[0, 0]] =
      .ok ⟨0, [[0, 0]], 0⟩ ∧
    cfg2Ex.numRounds = 1 :=
  ⟨rfl, rfl⟩

/-- Claim C5 (corrected): `optimize` always iterates over all `num_rounds`
rounds — the embedded loop has no early-stopping branch — but the record it
returns is the one assigned by the last round whose proposals survived the
filter pipeline (round 0's record if none did), since the skip branches do
not reassign the `metrics` variable.  When the final round's proposals
survive all filters, the returned record is the final round's. -/
theorem claim5_final_round_metrics (cfg : Config) (orc : Nat → RoundOracle)
    (inPool : List Entry) (as0 : List Nat) (at0 : List (List Int))
    (m : Nat) (st : OptState) (a : List Entry)
    (hm : cfg.numRounds = m + 1)
    (hrun : runTo cfg orc inPool as0 at0 m = .ok st)
    (hprep : prepareActive cfg st (m + 1) (orc (m + 1)).backtrackDraw
      (orc (m + 1)).randDraw = .ok a)
    (hfne : (orc (m + 1)).proposals.filter cfg.feasible ≠ [])
    (hnne : (uniqueBySeq ((orc (m + 1)).proposals.filter cfg.feasible)).filter
      (fun e => !(st.allSeqs.contains e.seq)) ≠ []) :
    ∃ mt : Metrics, optimize cfg orc inPool as0 at0 = .ok mt ∧
      mt.roundIdx = cfg.numRounds := by
  have hstep := roundStep_accept hprep hfne hnne
  have hrun1 : runTo cfg orc inPool as0 at0 (m + 1) =
      .ok (acceptState st a (m + 1) (st.totalBbEvals + (orc (m + 1)).bbEvals)
        ((uniqueBySeq ((orc (m + 1)).proposals.filter cfg.feasible)).filter
          (fun e => !(st.allSeqs.contains e.seq)))) := by
    unfold runTo
    rw [hrun]
    exact hstep
  refine ⟨(acceptState st a (m + 1) (st.totalBbEvals + (orc (m + 1)).bbEvals)
    ((uniqueBySeq ((orc (m + 1)).proposals.filter cfg.feasible)).filter
      (fun e => !(st.allSeqs.contains e.seq)))).metrics, ?_, ?_⟩
  · unfold optimize
    rw [hm, hrun1]
    rfl
  · simp [acceptState, hm]

/-- Witness for C5 at the concrete one-round run with surviving proposals. -/
theorem claim5_witness :
    ∃ mt : Metrics, optimize cfgEx orcEx inPoolEx as0Ex at0Ex = .ok mt ∧
      mt.roundIdx = cfgEx.numRounds :=
  claim5_final_round_metrics cfgEx orcEx inPoolEx as0Ex at0Ex 0 st0Ex [e00]
    rfl rfl rfl (by decide) (by decide)

/-- Counterexample to C1 as stated: after round 1 of the concrete run the
reported archive is `[1,1]`, while the non-dominated (minimize) subset of all
observed objective vectors is `[0,0]` — they differ because the round-0
frontier that seeds the incremental recomputation was computed under the
opposite (maximize) direction. -/
theorem claim1_counterexample :
    runTo cfgEx orcEx inPoolEx as0Ex at0Ex 1 = .ok stEx1 ∧
    stEx1.poolCandidates = [e00, e11, e22] ∧
    stEx1.paretoFront = [e11] ∧
    pareto_frontier stEx1.poolCandidates false = [e00] ∧
    stEx1.paretoFront ≠ pareto_frontier stEx1.poolCandidates false := by
  refine ⟨rfl, rfl, rfl, rfl, ?_⟩
  decide

/-- Claim C1 (corrected): at the end of every round the archive equals the
minimize-direction non-dominated subset of (round-0 maximize-direction
frontier of the feasible pool ++ all proposals accepted so far) — the
incremental recomputation over (previous frontier ++ new proposals) is
complete for a fixed direction, but because round 0 seeds the archive under
maximize while later rounds use minimize, the archive is not in general the
non-dominated subset of all objective vectors observed so far. -/
theorem claim1_archive_matches_seeded_frontier (cfg : Config)
    (orc : Nat → RoundOracle) (inPool : List Entry) (as0 : List Nat)
    (at0 : List (List Int)) (n : Nat)
    (hpool : ∀ e ∈ inPool, e.obj.length = n)
    (hprops : ∀ r, ∀ e ∈ (orc r).proposals, e.obj.length = n) :
    ∀ r st, runTo cfg orc inPool as0 at0 r = .ok st →
      st.paretoFront = pareto_frontier
        (pareto_frontier (inPool.filter cfg.feasible) true ++
          st.poolCandidates.drop (inPool.filter cfg.feasible).length)
        false := by
  intro r st h
  obtain ⟨hwf, acc, hpe, hfront⟩ := runTo_frontier_inv hpool hprops r st h
  rw [hpe, List.drop_left]
  exact hfront

/-- Witness for C1 at the concrete run. -/
theorem claim1_witness :
    stEx1.paretoFront = pareto_frontier
      (pareto_frontier (inPoolEx.filter cfgEx.feasible) true ++
        stEx1.poolCandidates.drop (inPoolEx.filter cfgEx.feasible).length)
      false :=
  claim1_archive_matches_seeded_frontier cfgEx orcEx inPoolEx as0Ex at0Ex 2
    (by decide)
    (by
      intro r
      show ∀ e ∈ [e22], e.obj.length = 2
      decide)
    1 stEx1 rfl

/-- Claim C6 (confirmed): across every round the history never loses an entry
(each round's history extends the previous one by appending a block), its
size is non-decreasing, the appended block is exactly the subset of the new
frontier whose sequence is absent from the previous history's sequence set,
and the history never holds two entries with the same sequence — given that
the feasible initial pool has distinct sequences all present in the observed
set. -/
theorem claim6_history_merge (cfg : Config) (orc : Nat → RoundOracle)
    (inPool : List Entry) (as0 : List Nat) (at0 : List (List Int))
    (hN : ((inPool.filter cfg.feasible).map (fun e => e.seq)).Nodup)
    (hSub : ∀ s ∈ (inPool.filter cfg.feasible).map (fun e => e.seq),
      s ∈ as0) :
    ∀ r st st₁, runTo cfg orc inPool as0 at0 r = .ok st →
      runTo cfg orc inPool as0 at0 (r + 1) = .ok st₁ →
      st₁.hist = st.hist ++ st₁.paretoFront.filter
        (fun e => !((st.hist.map (fun h2 => h2.seq)).contains e.seq)) ∧
      st.hist.length ≤ st₁.hist.length ∧
      (st₁.hist.map (fun e => e.seq)).Nodup := by
  intro r st st₁ h₀ h₁
  have hInv := histInv_run hN hSub r st h₀
  obtain ⟨hInv1, hgrow⟩ := histInv_step hInv (runTo_succ h₀ h₁)
  refine ⟨hgrow, ?_, hInv1.2.2.1⟩
  rw [hgrow, List.length_append]
  omega

/-- Witness for C6 across round 1 of the concrete run. -/
theorem claim6_witness :
    stEx1.hist = st0Ex.hist ++ stEx1.paretoFront.filter
      (fun e => !((st0Ex.hist.map (fun h2 => h2.seq)).contains e.seq)) ∧
    st0Ex.hist.length ≤ stEx1.hist.length ∧
    (stEx1.hist.map (fun e => e.seq)).Nodup :=
  claim6_history_merge cfgEx orcEx inPoolEx as0Ex at0Ex (by decide)
    (by decide) 0 st0Ex stEx1 rfl rfl

end Lambo
